import Mathlib

/-!
Shallow embedding of the `ordsearch` crate (`src/lib.rs`): an ordered
collection stored in Eytzinger (implicit complete binary tree) order,
built by an in-order recursive walk (`eytzinger_walk`,
`OrderedCollection::from_sorted_iter`) and searched by the branch-free
successor query `find_gte`.

Modelling choices:
* `usize` values (indices, the prefetch mask, shift counts) are modelled as
  `Nat`; no quantity in the algorithm can overflow a 64-bit machine word for
  any collection that fits in memory, so no `% 2^64` is needed.
* The partially initialised backing vector of `from_sorted_iter` (allocated
  with `Vec::with_capacity(n)` and filled through `get_unchecked_mut`) is
  modelled as a map `Nat → Option α` that starts everywhere `none`; a read
  of an unwritten slot is visible as `none`.
* Panics (`iter.next().unwrap()` on an exhausted iterator) are modelled by
  an `Option` result: `none` is a panic.
* Every recursive function of the source is modelled by structural
  recursion on an explicit fuel argument; the wrapper passes a fuel that is
  always sufficient (the source recursions decrease the measure `n - i`,
  and fuel `n` bounds it), so the definitions compute by `rfl`/`decide`.
-/

namespace Ordsearch

/-- In-order traversal (fuel-driven) of the positions of the implicit
complete binary tree on `{0, …, n-1}` rooted at `i`, where the children of
`i` are `2*i+1` and `2*i+2` and positions `≥ n` are absent.  This is the
order in which `eytzinger_walk` (src/lib.rs lines 149-167) visits the array
slots: left subtree, root, right subtree, stopping as soon as the position
leaves the allocated range. -/
def inorderGo (n : Nat) : Nat → Nat → List Nat
  | 0, _ => []
  | fuel+1, i =>
    if i < n then inorderGo n fuel (2*i+1) ++ i :: inorderGo n fuel (2*i+2)
    else []

/-- In-order positions of the implicit tree of size `n` rooted at `i`. -/
def inorderPos (n i : Nat) : List Nat := inorderGo n n i

theorem inorderGo_congr (n : Nat) : ∀ fuel1 fuel2 i, n - i ≤ fuel1 → n - i ≤ fuel2 →
    inorderGo n fuel1 i = inorderGo n fuel2 i := by
  intro fuel1
  induction fuel1 with
  | zero =>
    intro fuel2 i h1 h2
    cases fuel2 with
    | zero => rfl
    | succ f2 =>
      show _ = inorderGo n (f2+1) i
      simp only [inorderGo]
      rw [if_neg (by omega)]
  | succ f1 ih =>
    intro fuel2 i h1 h2
    cases fuel2 with
    | zero =>
      show inorderGo n (f1+1) i = _
      simp only [inorderGo]
      rw [if_neg (by omega)]
    | succ f2 =>
      simp only [inorderGo]
      by_cases hi : i < n
      · rw [if_pos hi, if_pos hi, ih f2 (2*i+1) (by omega) (by omega),
          ih f2 (2*i+2) (by omega) (by omega)]
      · rw [if_neg hi, if_neg hi]

theorem inorderPos_eq (n i : Nat) :
    inorderPos n i =
      if i < n then inorderPos n (2*i+1) ++ i :: inorderPos n (2*i+2) else [] := by
  by_cases hi : i < n
  · rw [if_pos hi]
    show inorderGo n n i = _
    cases n with
    | zero => omega
    | succ m =>
      rw [show inorderGo (m+1) (m+1) i
            = if i < m+1 then inorderGo (m+1) m (2*i+1) ++ i :: inorderGo (m+1) m (2*i+2)
              else []
          from rfl, if_pos hi,
        inorderGo_congr (m+1) m (m+1) (2*i+1) (by omega) (by omega),
        inorderGo_congr (m+1) m (m+1) (2*i+2) (by omega) (by omega)]
      rfl
  · rw [if_neg hi]
    show inorderGo n n i = []
    cases n with
    | zero => rfl
    | succ m =>
      rw [show inorderGo (m+1) (m+1) i
            = if i < m+1 then inorderGo (m+1) m (2*i+1) ++ i :: inorderGo (m+1) m (2*i+2)
              else []
          from rfl, if_neg hi]

theorem inorderPos_nil {n i : Nat} (h : ¬ i < n) : inorderPos n i = [] := by
  rw [inorderPos_eq, if_neg h]

/-- Position `j` lies in the implicit subtree rooted at `i`: in one-based
heap numbering, `i+1` is an iterated-halving ancestor of `j+1`. -/
def inSub (i j : Nat) : Prop := ∃ d, (j+1) / 2^d = i+1

theorem inSub_refl (i : Nat) : inSub i i := ⟨0, by simp⟩

theorem inSub_le {i j : Nat} (h : inSub i j) : i ≤ j := by
  obtain ⟨d, hd⟩ := h
  have := Nat.div_le_self (j+1) (2^d)
  omega

theorem inSub_of_left {i j : Nat} (h : inSub (2*i+1) j) : inSub i j := by
  obtain ⟨d, hd⟩ := h
  refine ⟨d+1, ?_⟩
  rw [pow_succ, ← Nat.div_div_eq_div_mul, hd]
  omega

theorem inSub_of_right {i j : Nat} (h : inSub (2*i+2) j) : inSub i j := by
  obtain ⟨d, hd⟩ := h
  refine ⟨d+1, ?_⟩
  rw [pow_succ, ← Nat.div_div_eq_div_mul, hd]
  omega

theorem inSub_succ_cases {i j d : Nat} (h : (j+1) / 2^(d+1) = i+1) :
    (j+1) / 2^d = 2*i+2 ∨ (j+1) / 2^d = 2*i+3 := by
  have h2 : (j+1) / 2^d / 2 = i+1 := by
    rw [Nat.div_div_eq_div_mul, ← pow_succ]
    exact h
  omega

theorem div_pow_ancestor (m : Nat) {a b : Nat} (hab : a ≤ b) :
    m / 2^b = (m / 2^a) / 2^(b-a) := by
  rw [Nat.div_div_eq_div_mul, ← pow_add]
  have h : a + (b - a) = b := by omega
  rw [h]

theorem inSub_left_right {i j : Nat} (h1 : inSub (2*i+1) j) (h2 : inSub (2*i+2) j) :
    False := by
  obtain ⟨d1, hd1⟩ := h1
  obtain ⟨d2, hd2⟩ := h2
  rcases Nat.lt_trichotomy d1 d2 with h | h | h
  · have ha := div_pow_ancestor (j+1) (Nat.le_of_lt h)
    rw [hd1, hd2] at ha
    have hle : (2*i+1+1) / 2^(d2-d1) ≤ (2*i+1+1) / 2 :=
      Nat.div_le_div_left (by
        calc (2:Nat) = 2^1 := by norm_num
        _ ≤ 2^(d2-d1) := Nat.pow_le_pow_right (by norm_num) (by omega)) (by norm_num)
    omega
  · rw [h] at hd1
    omega
  · have ha := div_pow_ancestor (j+1) (Nat.le_of_lt h)
    rw [hd2, hd1] at ha
    have hle : (2*i+2+1) / 2^(d1-d2) ≤ (2*i+2+1) / 2 :=
      Nat.div_le_div_left (by
        calc (2:Nat) = 2^1 := by norm_num
        _ ≤ 2^(d1-d2) := Nat.pow_le_pow_right (by norm_num) (by omega)) (by norm_num)
    omega

theorem mem_inorderGo (n : Nat) : ∀ fuel i j, n - i ≤ fuel →
    (j ∈ inorderGo n fuel i ↔ j < n ∧ inSub i j) := by
  intro fuel
  induction fuel with
  | zero =>
    intro i j h
    show j ∈ ([] : List Nat) ↔ _
    simp only [List.not_mem_nil, false_iff, not_and]
    intro hj hs
    have := inSub_le hs
    omega
  | succ f ih =>
    intro i j h
    show j ∈ (if i < n then _ else []) ↔ _
    by_cases hi : i < n
    · rw [if_pos hi]
      simp only [List.mem_append, List.mem_cons]
      constructor
      · rintro (hL | hj | hR)
        · have hm := (ih (2*i+1) j (by omega)).mp hL
          exact ⟨hm.1, inSub_of_left hm.2⟩
        · subst hj
          exact ⟨hi, inSub_refl j⟩
        · have hm := (ih (2*i+2) j (by omega)).mp hR
          exact ⟨hm.1, inSub_of_right hm.2⟩
      · rintro ⟨hj, d, hd⟩
        cases d with
        | zero =>
          simp only [pow_zero, Nat.div_one] at hd
          right; left
          omega
        | succ e =>
          rcases inSub_succ_cases hd with hc | hc
          · left
            exact (ih (2*i+1) j (by omega)).mpr ⟨hj, ⟨e, by rw [hc]⟩⟩
          · right; right
            exact (ih (2*i+2) j (by omega)).mpr ⟨hj, ⟨e, by rw [hc]⟩⟩
    · rw [if_neg hi]
      simp only [List.not_mem_nil, false_iff, not_and]
      intro hj hs
      have := inSub_le hs
      omega

theorem mem_inorderPos {n i j : Nat} : j ∈ inorderPos n i ↔ j < n ∧ inSub i j :=
  mem_inorderGo n n i j (by omega)

theorem nodup_inorderGo (n : Nat) : ∀ fuel i, n - i ≤ fuel → (inorderGo n fuel i).Nodup := by
  intro fuel
  induction fuel with
  | zero =>
    intro i h
    exact List.nodup_nil
  | succ f ih =>
    intro i h
    show ((if i < n then _ else []) : List Nat).Nodup
    by_cases hi : i < n
    · rw [if_pos hi]
      rw [List.nodup_append]
      refine ⟨ih (2*i+1) (by omega), ?_, ?_⟩
      · rw [List.nodup_cons]
        refine ⟨?_, ih (2*i+2) (by omega)⟩
        intro hmem
        have hm := (mem_inorderGo n f (2*i+2) i (by omega)).mp hmem
        have := inSub_le hm.2
        omega
      · intro a haL haR
        have h1 := (mem_inorderGo n f (2*i+1) a (by omega)).mp haL
        rcases List.mem_cons.mp haR with rfl | haR2
        · have := inSub_le h1.2
          omega
        · have h2 := (mem_inorderGo n f (2*i+2) a (by omega)).mp haR2
          exact inSub_left_right h1.2 h2.2
    · rw [if_neg hi]
      exact List.nodup_nil

theorem nodup_inorderPos (n i : Nat) : (inorderPos n i).Nodup :=
  nodup_inorderGo n n i (by omega)

theorem inSub_zero (j : Nat) : inSub 0 j := by
  refine ⟨Nat.log2 (j+1), ?_⟩
  have h1 : 2 ^ Nat.log2 (j+1) ≤ j+1 := Nat.log2_self_le (by omega)
  have h2 : j+1 < 2 ^ (Nat.log2 (j+1) + 1) := Nat.lt_log2_self
  have h3 : 2 ^ (Nat.log2 (j+1) + 1) = 2 * 2 ^ Nat.log2 (j+1) := by
    rw [pow_succ]
    omega
  exact Nat.div_eq_of_lt_le (by omega) (by omega)

theorem inorderPos_perm_range (n : Nat) : (inorderPos n 0).Perm (List.range n) := by
  rw [List.perm_ext_iff_of_nodup (nodup_inorderPos n 0) (List.nodup_range n)]
  intro a
  rw [mem_inorderPos, List.mem_range]
  constructor
  · exact fun h => h.1
  · exact fun h => ⟨h, inSub_zero a⟩

theorem length_inorderPos_zero (n : Nat) : (inorderPos n 0).length = n := by
  rw [(inorderPos_perm_range n).length_eq, List.length_range]

/-- Sequentially write the values `xs` into the map `f` at the positions
`ps` (first value at first position, and so on); surplus positions or
values are ignored.  This is the net effect on the backing store of a run
of `eytzinger_walk`, whose in-order recursion performs exactly these
writes. -/
def assignAll {α : Type} (f : Nat → Option α) : List Nat → List α → (Nat → Option α)
  | [], _ => f
  | _ :: _, [] => f
  | p :: ps, x :: xs => assignAll (fun j => if j = p then some x else f j) ps xs

theorem assignAll_nil_right {α : Type} (f : Nat → Option α) (ps : List Nat) :
    assignAll f ps [] = f := by
  cases ps <;> rfl

theorem assignAll_notMem {α : Type} :
    ∀ (ps : List Nat) (f : Nat → Option α) (xs : List α) (j : Nat),
      j ∉ ps → assignAll f ps xs j = f j := by
  intro ps
  induction ps with
  | nil => intro f xs j _; rfl
  | cons p ps ih =>
    intro f xs j hj
    cases xs with
    | nil => rfl
    | cons x xs =>
      have hne : j ≠ p := fun he => hj (by rw [he]; exact List.mem_cons_self p ps)
      show assignAll (fun j => if j = p then some x else f j) ps xs j = f j
      rw [ih _ xs j (fun hm => hj (List.mem_cons_of_mem p hm)), if_neg hne]

theorem assignAll_append {α : Type} :
    ∀ (A : List Nat) (f : Nat → Option α) (B : List Nat) (xs : List α),
      assignAll f (A ++ B) xs = assignAll (assignAll f A xs) B (xs.drop A.length) := by
  intro A
  induction A with
  | nil =>
    intro f B xs
    rfl
  | cons p A ih =>
    intro f B xs
    cases xs with
    | nil =>
      rw [List.drop_nil]
      show assignAll f ((p :: A) ++ B) [] = _
      rw [assignAll_nil_right, assignAll_nil_right, assignAll_nil_right]
    | cons x xs =>
      show assignAll (fun j => if j = p then some x else f j) (A ++ B) xs = _
      rw [ih]
      rfl

theorem assignAll_filterMap {α : Type} :
    ∀ (ps : List Nat) (f : Nat → Option α) (xs : List α), ps.Nodup → xs.length = ps.length →
      ps.filterMap (assignAll f ps xs) = xs := by
  intro ps
  induction ps with
  | nil =>
    intro f xs _ hlen
    have hx : xs = [] := List.length_eq_zero.mp (by simpa using hlen)
    subst hx
    rfl
  | cons p ps ih =>
    intro f xs hnd hlen
    cases xs with
    | nil => simp at hlen
    | cons x xs =>
      have hnp : p ∉ ps := (List.nodup_cons.mp hnd).1
      have hg : assignAll f (p :: ps) (x :: xs) p = some x := by
        show assignAll (fun j => if j = p then some x else f j) ps xs p = some x
        rw [assignAll_notMem ps _ xs p hnp, if_pos rfl]
      rw [List.filterMap_cons_some hg]
      show x :: ps.filterMap (assignAll (fun j => if j = p then some x else f j) ps xs) = x :: xs
      rw [ih _ xs (List.nodup_cons.mp hnd).2 (by simpa using hlen)]

theorem assignAll_getElem {α : Type} :
    ∀ (ps : List Nat) (f : Nat → Option α) (xs : List α) (k j : Nat),
      ps.Nodup → xs.length = ps.length → ps[k]? = some j →
      assignAll f ps xs j = xs[k]? := by
  intro ps
  induction ps with
  | nil =>
    intro f xs k j _ _ hk
    simp at hk
  | cons p ps ih =>
    intro f xs k j hnd hlen hk
    cases xs with
    | nil => simp at hlen
    | cons x xs =>
      have hnp : p ∉ ps := (List.nodup_cons.mp hnd).1
      cases k with
      | zero =>
        have hj : p = j := by simpa using hk
        show assignAll (fun i => if i = p then some x else f i) ps xs j = (x :: xs)[0]?
        rw [← hj, assignAll_notMem ps _ xs p hnp]
        simp
      | succ k =>
        have hk2 : ps[k]? = some j := by simpa using hk
        show assignAll (fun i => if i = p then some x else f i) ps xs j = (x :: xs)[k+1]?
        rw [ih _ xs k j (List.nodup_cons.mp hnd).2 (by simpa using hlen) hk2]
        simp

/-- Collect the initialised slots `f 0, …, f (n-1)` into a list, failing if
any slot is uninitialised.  This models the `unsafe { v.set_len(n) }` in
`from_sorted_iter` (src/lib.rs line 229), which declares all `n` slots
initialised: reading an unwritten slot would be undefined behaviour, and is
modelled by the `none` result. -/
def collectInit {α : Type} (f : Nat → Option α) : List Nat → Option (List α)
  | [] => some []
  | j :: js =>
    match f j, collectInit f js with
    | some x, some xs => some (x :: xs)
    | _, _ => none

theorem collectInit_isSome {α : Type} (f : Nat → Option α) :
    ∀ js : List Nat, (∀ j ∈ js, (f j).isSome) → ∃ l, collectInit f js = some l := by
  intro js
  induction js with
  | nil => intro _; exact ⟨[], rfl⟩
  | cons j js ih =>
    intro h
    obtain ⟨x, hx⟩ := Option.isSome_iff_exists.mp (h j (List.mem_cons_self j js))
    obtain ⟨l, hl⟩ := ih (fun a ha => h a (List.mem_cons_of_mem j ha))
    refine ⟨x :: l, ?_⟩
    show (match f j, collectInit f js with
      | some x, some xs => some (x :: xs)
      | _, _ => none) = some (x :: l)
    rw [hx, hl]

theorem collectInit_length {α : Type} (f : Nat → Option α) :
    ∀ (js : List Nat) (l : List α), collectInit f js = some l → l.length = js.length := by
  intro js
  induction js with
  | nil =>
    intro l hl
    cases (Option.some.injEq _ _ ▸ hl : [] = l)
    rfl
  | cons j js ih =>
    intro l hl
    revert hl
    show (match f j, collectInit f js with
      | some x, some xs => some (x :: xs)
      | _, _ => none) = some l → _
    cases hfj : f j with
    | none => intro hl; cases hl
    | some x =>
      cases hc : collectInit f js with
      | none => intro hl; cases hl
      | some xs =>
        intro hl
        cases (by simpa using hl : x :: xs = l)
        have := ih xs hc
        simp [this]

theorem collectInit_getElem {α : Type} (f : Nat → Option α) :
    ∀ (js : List Nat) (l : List α), collectInit f js = some l →
      ∀ k : Nat, l[k]? = (js[k]?).bind f := by
  intro js
  induction js with
  | nil =>
    intro l hl k
    have h2 : some ([] : List α) = some l := hl
    cases Option.some.inj h2
    simp
  | cons j js ih =>
    intro l hl k
    have hl2 : (match f j, collectInit f js with
      | some x, some xs => some (x :: xs)
      | _, _ => none) = some l := hl
    cases hfj : f j with
    | none => rw [hfj] at hl2; cases hl2
    | some x =>
      cases hc : collectInit f js with
      | none => rw [hfj, hc] at hl2; cases hl2
      | some xs =>
        rw [hfj, hc] at hl2
        cases (by simpa using hl2 : x :: xs = l)
        cases k with
        | zero => simpa using hfj.symm
        | succ k => simpa using ih xs hc k

/-- Fuel-driven model of `eytzinger_walk` (src/lib.rs lines 149-167).  The
backing vector of capacity `n` is the map `f`; the iterator is the list
`rest`.  If `i ≥ capacity` the walk returns at once; otherwise it recurses
into the left child `2*i+1`, pops the next iterator element and writes it
at slot `i` (`none` models the panic of `iter.next().unwrap()` on an empty
iterator), then recurses into the right child `2*i+2`. -/
def walkGo {α : Type} (n : Nat) :
    Nat → Nat → (Nat → Option α) → List α → Option ((Nat → Option α) × List α)
  | 0, _, f, rest => some (f, rest)
  | fuel+1, i, f, rest =>
    if i < n then
      match walkGo n fuel (2*i+1) f rest with
      | none => none
      | some (f1, r1) =>
        match r1 with
        | [] => none
        | x :: r2 => walkGo n fuel (2*i+2) (fun j => if j = i then some x else f1 j) r2
    else some (f, rest)

/-- Model of `eytzinger_walk(v, iter, i)` with `n = v.capacity()`. -/
def eytzinger_walk {α : Type} (n i : Nat) (f : Nat → Option α) (rest : List α) :
    Option ((Nat → Option α) × List α) :=
  walkGo n n i f rest

theorem walkGo_spec {α : Type} (n : Nat) :
    ∀ (fuel i : Nat) (f : Nat → Option α) (rest : List α), n - i ≤ fuel →
      (inorderPos n i).length ≤ rest.length →
      walkGo n fuel i f rest =
        some (assignAll f (inorderPos n i) rest, rest.drop (inorderPos n i).length) := by
  intro fuel
  induction fuel with
  | zero =>
    intro i f rest h hlen
    rw [inorderPos_nil (by omega)]
    rfl
  | succ fuel ih =>
    intro i f rest h hlen
    by_cases hi : i < n
    · have hdecomp := inorderPos_eq n i
      rw [if_pos hi] at hdecomp
      have hL : (inorderPos n (2*i+1)).length ≤ rest.length := by
        rw [hdecomp] at hlen
        simp only [List.length_append, List.length_cons] at hlen
        omega
      have hstep : walkGo n (fuel+1) i f rest =
          (match walkGo n fuel (2*i+1) f rest with
          | none => none
          | some (f1, r1) =>
            match r1 with
            | [] => none
            | x :: r2 =>
              walkGo n fuel (2*i+2) (fun j => if j = i then some x else f1 j) r2) := by
        show (if i < n then _ else _) = _
        rw [if_pos hi]
      rw [hstep, ih (2*i+1) f rest (by omega) hL]
      have hlen2 : (inorderPos n (2*i+1)).length < rest.length := by
        rw [hdecomp] at hlen
        simp only [List.length_append, List.length_cons] at hlen
        omega
      cases hr : rest.drop (inorderPos n (2*i+1)).length with
      | nil =>
        exfalso
        have hlen3 := congrArg List.length hr
        rw [List.length_drop] at hlen3
        simp at hlen3
        omega
      | cons x r2 =>
        show walkGo n fuel (2*i+2) _ r2 = _
        have hr2 : r2 = rest.drop ((inorderPos n (2*i+1)).length + 1) := by
          have : rest.drop ((inorderPos n (2*i+1)).length + 1) =
              (rest.drop (inorderPos n (2*i+1)).length).drop 1 := by
            rw [List.drop_drop]
          rw [this, hr]
          rfl
        have hR : (inorderPos n (2*i+2)).length ≤ r2.length := by
          have h1 : r2.length = rest.length - ((inorderPos n (2*i+1)).length + 1) := by
            rw [hr2, List.length_drop]
          have h2 := congrArg List.length hdecomp
          simp only [List.length_append, List.length_cons] at h2
          omega
        rw [ih (2*i+2) _ r2 (by omega) hR]
        have hassign : assignAll f (inorderPos n i) rest =
            assignAll
              (fun j => if j = i then some x
                else assignAll f (inorderPos n (2*i+1)) rest j)
              (inorderPos n (2*i+2)) r2 := by
          rw [hdecomp, assignAll_append]
          have hdropx : rest.drop (inorderPos n (2*i+1)).length = x :: r2 := hr
          rw [hdropx]
          rfl
        have hdrop : rest.drop (inorderPos n i).length =
            r2.drop (inorderPos n (2*i+2)).length := by
          rw [hr2, List.drop_drop, hdecomp]
          simp only [List.length_append, List.length_cons]
          have harith : (inorderPos n (2*i+1)).length + ((inorderPos n (2*i+2)).length + 1)
              = (inorderPos n (2*i+1)).length + 1 + (inorderPos n (2*i+2)).length := by
            omega
          rw [harith]
        rw [hassign, hdrop]
    · rw [inorderPos_nil hi]
      show (if i < n then _ else some (f, rest)) = some (assignAll f [] rest, rest.drop 0)
      rw [if_neg hi]
      rfl

/-- Model of `OrderedCollection::from_sorted_iter` (src/lib.rs lines
218-246, without the `nightly`-only mask field): allocate capacity `n`,
run `eytzinger_walk` from the root, then `set_len(n)`, i.e. read out the
`n` slots, all of which must have been initialised.  A `none` result is a
panic or an uninitialised read; the theorems show it never happens. -/
def from_sorted_iter {α : Type} (s : List α) : Option (List α) :=
  match eytzinger_walk s.length 0 (fun _ => none) s with
  | none => none
  | some (f, _) => collectInit f (List.range s.length)

/-- The assignment map produced by the walk over the whole tree. -/
def builtMap {α : Type} (s : List α) : Nat → Option α :=
  assignAll (fun _ => none) (inorderPos s.length 0) s

theorem eytzinger_walk_full {α : Type} (s : List α) :
    eytzinger_walk s.length 0 (fun _ => none) s = some (builtMap s, []) := by
  unfold eytzinger_walk builtMap
  rw [walkGo_spec s.length s.length 0 (fun _ => none) s (by omega)
    (by rw [length_inorderPos_zero]),
    length_inorderPos_zero, List.drop_length]

theorem from_sorted_iter_eq {α : Type} (s : List α) :
    from_sorted_iter s = collectInit (builtMap s) (List.range s.length) := by
  unfold from_sorted_iter
  rw [eytzinger_walk_full]

theorem builtMap_of_ge {α : Type} (s : List α) (j : Nat) (hj : s.length ≤ j) :
    builtMap s j = none := by
  unfold builtMap
  rw [assignAll_notMem]
  intro hmem
  have := (mem_inorderPos.mp hmem).1
  omega

theorem builtMap_isSome {α : Type} (s : List α) (j : Nat) (hj : j < s.length) :
    (builtMap s j).isSome := by
  have hmem : j ∈ inorderPos s.length 0 := mem_inorderPos.mpr ⟨hj, inSub_zero j⟩
  obtain ⟨k, hk⟩ := List.mem_iff_getElem?.mp hmem
  unfold builtMap
  rw [assignAll_getElem (inorderPos s.length 0) _ s k j (nodup_inorderPos _ _)
    (length_inorderPos_zero s.length).symm hk]
  have hklt : k < s.length := by
    have := List.getElem?_eq_some_iff.mp hk
    obtain ⟨hlt, _⟩ := this
    rw [length_inorderPos_zero] at hlt
    omega
  rw [List.getElem?_eq_getElem hklt]
  rfl

theorem from_sorted_iter_isSome {α : Type} (s : List α) :
    ∃ items, from_sorted_iter s = some items := by
  rw [from_sorted_iter_eq]
  apply collectInit_isSome
  intro j hj
  exact builtMap_isSome s j (by simpa using hj)

theorem items_length {α : Type} {s items : List α} (hb : from_sorted_iter s = some items) :
    items.length = s.length := by
  rw [from_sorted_iter_eq] at hb
  have := collectInit_length (builtMap s) (List.range s.length) items hb
  simpa using this

theorem items_getElem {α : Type} {s items : List α} (hb : from_sorted_iter s = some items)
    (j : Nat) (hj : j < s.length) : items[j]? = builtMap s j := by
  rw [from_sorted_iter_eq] at hb
  have := collectInit_getElem (builtMap s) (List.range s.length) items hb j
  rw [List.getElem?_range hj] at this
  simpa using this

/-- The elements stored in the implicit subtree of `items` rooted at
position `i`, listed in in-order (left subtree, root, right subtree). -/
def subtreeElems {α : Type} (items : List α) (i : Nat) : List α :=
  (inorderPos items.length i).filterMap (fun p => items[p]?)

/-- Fuel-driven model of the `while i < n` descent of `find_gte`
(src/lib.rs lines 294-314): at each step compare `x` with `items[i]`
(the `get_unchecked(i)` read is guarded by `i < n`) and move to the left
child on `x ≤ items[i]`, to the right child otherwise; return the final
out-of-bounds cursor. -/
def findLoopGo {α : Type} [LinearOrder α] (items : List α) (x : α) : Nat → Nat → Nat
  | 0, i => i
  | fuel+1, i =>
    if h : i < items.length then
      if x ≤ items[i] then findLoopGo items x fuel (2*i+1)
      else findLoopGo items x fuel (2*i+2)
    else i

/-- The descent of `find_gte` starting at cursor `i`. -/
def findLoop {α : Type} [LinearOrder α] (items : List α) (x : α) (i : Nat) : Nat :=
  findLoopGo items x items.length i

/-- Fuel-driven count of trailing one bits.  For the final cursor `i` of
the descent, the source computes `(!(i + 1)).trailing_zeros()`, and the
trailing zeros of the bitwise complement of `i+1` are exactly the trailing
ones of `i+1` (the cursor is far below `usize::MAX`, so the complement is
nonzero). -/
def trailingOnesGo : Nat → Nat → Nat
  | 0, _ => 0
  | fuel+1, m => if m % 2 = 1 then trailingOnesGo fuel (m / 2) + 1 else 0

/-- Number of trailing one bits of `m`. -/
def trailingOnes (m : Nat) : Nat := trailingOnesGo m m

/-- The bit-manipulation recovery of `find_gte` (src/lib.rs line 319):
`j = (i + 1) >> ((!(i + 1)).trailing_zeros() + 1)`. -/
def recoverIndex (i : Nat) : Nat := (i+1) / 2^(trailingOnes (i+1) + 1)

/-- Model of `OrderedCollection::find_gte` (src/lib.rs lines 282-325,
without the correctness-irrelevant `nightly` prefetch): run the descent
from the root, recover `j` by the bit trick, and answer `None` when
`j == 0`, otherwise the element at `j - 1` (a `get_unchecked` read,
modelled by `getElem?`; the safety theorem shows `j - 1` is in bounds). -/
def find_gte {α : Type} [LinearOrder α] (items : List α) (x : α) : Option α :=
  let i := findLoop items x 0
  let j := recoverIndex i
  if j = 0 then none else items[j-1]?

/-- Fuel-driven explicit tracking of the position of the last node at which
the descent moved to the left child, the "last candidate" of the spec. -/
def lastLeftGo {α : Type} [LinearOrder α] (items : List α) (x : α) : Nat → Nat → Option Nat
  | 0, _ => none
  | fuel+1, i =>
    if h : i < items.length then
      if x ≤ items[i] then some ((lastLeftGo items x fuel (2*i+1)).getD i)
      else lastLeftGo items x fuel (2*i+2)
    else none

/-- Position of the last left turn of the descent started at `i`. -/
def lastLeft {α : Type} [LinearOrder α] (items : List α) (x : α) (i : Nat) : Option Nat :=
  lastLeftGo items x items.length i

/-- Fuel-driven variant of the descent that tracks the last left-branch
position in an accumulator variable updated on every comparison — the
simpler reimplementation the spec describes as producing identical
results to the bit-trick recovery. -/
def findLoopTrackGo {α : Type} [LinearOrder α] (items : List α) (x : α) :
    Nat → Nat → Option Nat → Option Nat
  | 0, _, best => best
  | fuel+1, i, best =>
    if h : i < items.length then
      if x ≤ items[i] then findLoopTrackGo items x fuel (2*i+1) (some i)
      else findLoopTrackGo items x fuel (2*i+2) best
    else best

/-- The explicit candidate-tracking search descent. -/
def findLoopTrack {α : Type} [LinearOrder α] (items : List α) (x : α) (i : Nat)
    (best : Option Nat) : Option Nat :=
  findLoopTrackGo items x items.length i best

/-- Fuel-driven count of how many times the body of the `while i < n` loop
of `find_gte` executes (one comparison per execution). -/
def findLoopStepsGo {α : Type} [LinearOrder α] (items : List α) (x : α) : Nat → Nat → Nat
  | 0, _ => 0
  | fuel+1, i =>
    if h : i < items.length then
      (if x ≤ items[i] then findLoopStepsGo items x fuel (2*i+1)
       else findLoopStepsGo items x fuel (2*i+2)) + 1
    else 0

/-- Number of loop iterations (comparisons) of the `find_gte` descent. -/
def findLoopSteps {α : Type} [LinearOrder α] (items : List α) (x : α) (i : Nat) : Nat :=
  findLoopStepsGo items x items.length i

/-- Fuel-driven model of the mask loop of `from_sorted_iter` (src/lib.rs
lines 233-237): `mask` starts at `1` and doubles while `mask <= n`; the
mask is always the power `2^j`, and the fuel bounds the remaining
doublings. -/
def maskGo (n : Nat) : Nat → Nat → Nat
  | 0, j => 2^j
  | fuel+1, j => if 2^j ≤ n then maskGo n fuel (j+1) else 2^j

/-- The prefetch mask computed during construction: the final doubled
value minus one. -/
def computeMask (n : Nat) : Nat := maskGo n (n+1) 0 - 1

/-- Model of `impl From<Vec<T>> for OrderedCollection<T>` (src/lib.rs
lines 128-142): `v.sort_unstable()` then `from_sorted_iter`.  The sort is
modelled by insertion sort; any correct sort of a list over a linear order
yields the same (unique) non-decreasing reordering. -/
def fromVec {α : Type} [LinearOrder α] (v : List α) : Option (List α) :=
  from_sorted_iter (List.insertionSort (· ≤ ·) v)

/-- Model of `OrderedCollection::from_slice` (src/lib.rs lines 260-263):
`v.sort_unstable()` reorders the caller's slice in place, and the
collection is built separately over references into it.  The first
component is the caller's slice after the call; the second is the
collection's own backing vector. -/
def from_slice {α : Type} [LinearOrder α] (v : List α) : List α × Option (List α) :=
  (List.insertionSort (· ≤ ·) v, from_sorted_iter (List.insertionSort (· ≤ ·) v))

/-- Spec-side definition (for the refinement comparison of the Eytzinger
invariant): the element at position `i` of a sorted, perfectly
level-filled complete binary search tree over the sorted list `s` is the
element of `s` whose rank equals the in-order rank of position `i` in the
implicit tree of size `s.length`; positions outside the tree hold
nothing. -/
def specCompleteBST {α : Type} (s : List α) (i : Nat) : Option α :=
  s[(inorderPos s.length 0).indexOf i]?

theorem trailingOnesGo_congr : ∀ fuel1 fuel2 m, m ≤ fuel1 → m ≤ fuel2 →
    trailingOnesGo fuel1 m = trailingOnesGo fuel2 m := by
  intro fuel1
  induction fuel1 with
  | zero =>
    intro fuel2 m h1 h2
    cases fuel2 with
    | zero => rfl
    | succ f2 =>
      show 0 = if m % 2 = 1 then _ else 0
      rw [if_neg (by omega)]
  | succ f1 ih =>
    intro fuel2 m h1 h2
    cases fuel2 with
    | zero =>
      show (if m % 2 = 1 then _ else 0) = 0
      rw [if_neg (by omega)]
    | succ f2 =>
      show (if m % 2 = 1 then trailingOnesGo f1 (m / 2) + 1 else 0)
        = (if m % 2 = 1 then trailingOnesGo f2 (m / 2) + 1 else 0)
      by_cases hm : m % 2 = 1
      · rw [if_pos hm, if_pos hm, ih f2 (m / 2) (by omega) (by omega)]
      · rw [if_neg hm, if_neg hm]

theorem trailingOnes_even {m : Nat} (h : m % 2 = 0) : trailingOnes m = 0 := by
  unfold trailingOnes
  cases m with
  | zero => rfl
  | succ k =>
    show (if (k+1) % 2 = 1 then _ else 0) = 0
    rw [if_neg (by omega)]

theorem trailingOnes_odd (m : Nat) : trailingOnes (2*m+1) = trailingOnes m + 1 := by
  unfold trailingOnes
  have hstep : trailingOnesGo (2*m+1) (2*m+1)
      = if (2*m+1) % 2 = 1 then trailingOnesGo (2*m) ((2*m+1) / 2) + 1 else 0 := rfl
  rw [hstep, if_pos (by omega)]
  have hdiv : (2*m+1) / 2 = m := by omega
  rw [hdiv, trailingOnesGo_congr (2*m) m m (by omega) (by omega)]

theorem recoverIndex_left (i : Nat) : recoverIndex (2*i+1) = i+1 := by
  unfold recoverIndex
  rw [trailingOnes_even (m := 2*i+1+1) (by omega)]
  have h2 : (2:Nat)^(0+1) = 2 := by norm_num
  rw [h2]
  omega

theorem recoverIndex_right (i : Nat) : recoverIndex (2*i+2) = recoverIndex i := by
  unfold recoverIndex
  have h1 : 2*i+2+1 = 2*(i+1)+1 := by ring
  rw [h1, trailingOnes_odd]
  have h2 : (2:Nat)^(trailingOnes (i+1) + 1 + 1) = 2 * 2^(trailingOnes (i+1) + 1) := by
    ring
  rw [h2, ← Nat.div_div_eq_div_mul]
  have h3 : (2*(i+1)+1) / 2 = i+1 := by omega
  rw [h3]

theorem recoverIndex_zero : recoverIndex 0 = 0 := rfl

theorem findLoopTrackGo_eq {α : Type} [LinearOrder α] (items : List α) (x : α) :
    ∀ fuel i best, findLoopTrackGo items x fuel i best =
      match lastLeftGo items x fuel i with
      | some k => some k
      | none => best := by
  intro fuel
  induction fuel with
  | zero => intro i best; rfl
  | succ f ih =>
    intro i best
    simp only [findLoopTrackGo, lastLeftGo]
    by_cases hi : i < items.length
    · rw [dif_pos hi, dif_pos hi]
      by_cases hx : x ≤ items[i]
      · rw [if_pos hx, if_pos hx, ih]
        cases hll : lastLeftGo items x f (2*i+1) with
        | none => simp
        | some k => simp
      · rw [if_neg hx, if_neg hx, ih]
    · rw [dif_neg hi, dif_neg hi]

theorem recoverIndex_findLoopGo {α : Type} [LinearOrder α] (items : List α) (x : α) :
    ∀ fuel i, items.length - i ≤ fuel →
      recoverIndex (findLoopGo items x fuel i) =
        match lastLeftGo items x fuel i with
        | some k => k + 1
        | none => recoverIndex i := by
  intro fuel
  induction fuel with
  | zero => intro i h; rfl
  | succ f ih =>
    intro i h
    simp only [findLoopGo, lastLeftGo]
    by_cases hi : i < items.length
    · rw [dif_pos hi, dif_pos hi]
      by_cases hx : x ≤ items[i]
      · rw [if_pos hx, if_pos hx, ih (2*i+1) (by omega)]
        cases hll : lastLeftGo items x f (2*i+1) with
        | none => simp [recoverIndex_left]
        | some k => simp
      · rw [if_neg hx, if_neg hx, ih (2*i+2) (by omega)]
        cases hll : lastLeftGo items x f (2*i+2) with
        | none => simp [recoverIndex_right]
        | some k => simp
    · rw [dif_neg hi, dif_neg hi]

theorem lastLeftGo_lt {α : Type} [LinearOrder α] (items : List α) (x : α) :
    ∀ fuel i k, lastLeftGo items x fuel i = some k → k < items.length := by
  intro fuel
  induction fuel with
  | zero => intro i k h; cases h
  | succ f ih =>
    intro i k h
    simp only [lastLeftGo] at h
    by_cases hi : i < items.length
    · rw [dif_pos hi] at h
      by_cases hx : x ≤ items[i]
      · rw [if_pos hx] at h
        cases hll : lastLeftGo items x f (2*i+1) with
        | none =>
          rw [hll] at h
          have : i = k := by simpa using h
          omega
        | some q =>
          rw [hll] at h
          have : q = k := by simpa using h
          exact this ▸ ih (2*i+1) q hll
      · rw [if_neg hx] at h
        exact ih (2*i+2) k h
    · rw [dif_neg hi] at h
      cases h

theorem subtreeElems_nil {α : Type} (items : List α) (i : Nat)
    (hi : ¬ i < items.length) : subtreeElems items i = [] := by
  unfold subtreeElems
  rw [inorderPos_nil hi]
  rfl

theorem subtreeElems_decomp {α : Type} (items : List α) (i : Nat)
    (hi : i < items.length) :
    subtreeElems items i =
      subtreeElems items (2*i+1) ++ items[i] :: subtreeElems items (2*i+2) := by
  unfold subtreeElems
  rw [inorderPos_eq items.length i, if_pos hi, List.filterMap_append,
    List.filterMap_cons_some (show items[i]? = some items[i] from List.getElem?_eq_getElem hi)]

theorem find?_append_cases {α : Type} (p : α → Bool) :
    ∀ (l1 l2 : List α), (l1 ++ l2).find? p =
      match l1.find? p with
      | some a => some a
      | none => l2.find? p := by
  intro l1 l2
  induction l1 with
  | nil => rfl
  | cons a l1 ih =>
    cases hpa : p a with
    | true =>
      simp [List.cons_append, List.find?_cons_of_pos _ hpa]
    | false =>
      have hneg : ¬ p a = true := by simp [hpa]
      simp [List.cons_append, List.find?_cons_of_neg _ hneg, ih]

theorem lastLeftGo_find {α : Type} [LinearOrder α] (items : List α) (x : α) :
    ∀ fuel i, items.length - i ≤ fuel → (subtreeElems items i).Sorted (· ≤ ·) →
      ((lastLeftGo items x fuel i).bind fun k => items[k]?) =
        (subtreeElems items i).find? (fun a => decide (x ≤ a)) := by
  intro fuel
  induction fuel with
  | zero =>
    intro i h _
    rw [subtreeElems_nil items i (by omega)]
    rfl
  | succ f ih =>
    intro i h hsorted
    by_cases hi : i < items.length
    · have hdec := subtreeElems_decomp items i hi
      have hs2 : (subtreeElems items (2*i+1) ++
          items[i] :: subtreeElems items (2*i+2)).Pairwise (· ≤ ·) := by
        rw [← hdec]; exact hsorted
      have hsL : (subtreeElems items (2*i+1)).Sorted (· ≤ ·) :=
        (List.pairwise_append.mp hs2).1
      have hsR : (subtreeElems items (2*i+2)).Sorted (· ≤ ·) :=
        ((List.pairwise_append.mp hs2).2.1).of_cons
      have hcross := (List.pairwise_append.mp hs2).2.2
      simp only [lastLeftGo]
      rw [dif_pos hi, hdec, find?_append_cases]
      by_cases hx : x ≤ items[i]
      · rw [if_pos hx]
        have hIH := ih (2*i+1) (by omega) hsL
        cases hll : lastLeftGo items x f (2*i+1) with
        | none =>
          rw [hll] at hIH
          simp only [Option.none_bind] at hIH
          rw [← hIH]
          simp [hx, List.getElem?_eq_getElem hi]
        | some k =>
          rw [hll] at hIH
          simp only [Option.some_bind] at hIH
          have hk := lastLeftGo_lt items x f (2*i+1) k hll
          rw [← hIH]
          simp [List.getElem?_eq_getElem hk]
      · rw [if_neg hx]
        have hIH := ih (2*i+2) (by omega) hsR
        have hLnone :
            (subtreeElems items (2*i+1)).find? (fun a => decide (x ≤ a)) = none := by
          rw [List.find?_eq_none]
          intro a ha
          simp only [decide_eq_true_eq]
          intro hxa
          exact hx (le_trans hxa (hcross a ha items[i]
            (List.mem_cons_self _ _)))
        rw [hLnone]
        show (lastLeftGo items x f (2*i+2)).bind (fun k => items[k]?) = _
        rw [List.find?_cons_of_neg _ (by simpa using hx)]
        exact hIH
    · have hnone : lastLeftGo items x (f+1) i = none := by
        simp only [lastLeftGo]
        rw [dif_neg hi]
      rw [hnone, subtreeElems_nil items i hi]
      rfl

theorem subtreeElems_zero {α : Type} {s items : List α}
    (hb : from_sorted_iter s = some items) : subtreeElems items 0 = s := by
  unfold subtreeElems
  rw [items_length hb]
  rw [List.filterMap_congr (fun p hp => items_getElem hb p (mem_inorderPos.mp hp).1)]
  exact assignAll_filterMap (inorderPos s.length 0) _ s (nodup_inorderPos _ _)
    (length_inorderPos_zero s.length).symm

theorem find_gte_eq_find? {α : Type} [LinearOrder α] {s items : List α}
    (hs : s.Sorted (· ≤ ·)) (hb : from_sorted_iter s = some items) (x : α) :
    find_gte items x = s.find? (fun a => decide (x ≤ a)) := by
  have he := subtreeElems_zero hb
  have hsort : (subtreeElems items 0).Sorted (· ≤ ·) := by rw [he]; exact hs
  have hkey := lastLeftGo_find items x items.length 0 (by omega) hsort
  have hr := recoverIndex_findLoopGo items x items.length 0 (by omega)
  rw [he] at hkey
  show (if recoverIndex (findLoop items x 0) = 0 then none
    else items[recoverIndex (findLoop items x 0) - 1]?) = _
  unfold findLoop
  cases hll : lastLeftGo items x items.length 0 with
  | none =>
    rw [hll] at hkey hr
    simp only [Option.none_bind] at hkey
    have hr2 : recoverIndex (findLoopGo items x items.length 0) = recoverIndex 0 := hr
    rw [hr2, if_pos recoverIndex_zero]
    exact hkey
  | some k =>
    rw [hll] at hkey hr
    simp only [Option.some_bind] at hkey
    have hr2 : recoverIndex (findLoopGo items x items.length 0) = k + 1 := hr
    rw [hr2, if_neg (by omega)]
    have hk1 : k + 1 - 1 = k := by omega
    rw [hk1]
    exact hkey

theorem find?_sorted_min {α : Type} [LinearOrder α] :
    ∀ (s : List α), s.Sorted (· ≤ ·) → ∀ (x a : α),
      s.find? (fun b => decide (x ≤ b)) = some a →
      a ∈ s ∧ x ≤ a ∧ ∀ b ∈ s, x ≤ b → a ≤ b := by
  intro s
  induction s with
  | nil => intro _ x a h; cases h
  | cons c s ih =>
    intro hs x a h
    by_cases hxc : x ≤ c
    · rw [List.find?_cons_of_pos _ (by simpa using hxc)] at h
      cases Option.some.inj h
      refine ⟨List.mem_cons_self _ _, hxc, ?_⟩
      intro b hb _
      rcases List.mem_cons.mp hb with rfl | hb2
      · exact le_refl _
      · exact List.rel_of_sorted_cons hs b hb2
    · rw [List.find?_cons_of_neg _ (by simpa using hxc)] at h
      obtain ⟨hmem, hxa, hmin⟩ := ih hs.of_cons x a h
      refine ⟨List.mem_cons_of_mem _ hmem, hxa, ?_⟩
      intro b hb hxb
      rcases List.mem_cons.mp hb with rfl | hb2
      · exact absurd hxb hxc
      · exact hmin b hb2 hxb

theorem findLoopStepsGo_le {α : Type} [LinearOrder α] (items : List α) (x : α) :
    ∀ fuel i m, items.length - i ≤ fuel → items.length < 2^m * (i+1) →
      findLoopStepsGo items x fuel i ≤ m := by
  intro fuel
  induction fuel with
  | zero => intro i m _ _; exact Nat.zero_le m
  | succ f ih =>
    intro i m h hm
    simp only [findLoopStepsGo]
    by_cases hi : i < items.length
    · rw [dif_pos hi]
      cases m with
      | zero =>
        exfalso
        simp only [pow_zero, one_mul] at hm
        omega
      | succ m =>
        have hstep : ∀ c : Nat, 2*(i+1) ≤ c+1 → items.length < 2^m * (c+1) := by
          intro c hc
          calc items.length < 2^(m+1) * (i+1) := hm
          _ = 2^m * (2*(i+1)) := by ring
          _ ≤ 2^m * (c+1) := Nat.mul_le_mul_left _ hc
        by_cases hx : x ≤ items[i]
        · rw [if_pos hx]
          have := ih (2*i+1) m (by omega) (hstep (2*i+1) (by omega))
          omega
        · rw [if_neg hx]
          have := ih (2*i+2) m (by omega) (hstep (2*i+2) (by omega))
          omega
    · rw [dif_neg hi]
      exact Nat.zero_le m

theorem findLoopSteps_le {α : Type} [LinearOrder α] (items : List α) (x : α) :
    findLoopSteps items x 0 ≤ Nat.log2 (items.length + 1) + 1 := by
  unfold findLoopSteps
  have h1 : items.length + 1 < 2 ^ (Nat.log2 (items.length + 1) + 1) :=
    Nat.lt_log2_self
  have h2 : items.length < 2 ^ (Nat.log2 (items.length + 1) + 1) * (0 + 1) := by
    have h3 : (2:Nat) ^ (Nat.log2 (items.length + 1) + 1) * (0 + 1)
        = 2 ^ (Nat.log2 (items.length + 1) + 1) := by ring
    omega
  exact findLoopStepsGo_le items x items.length 0 _ (by omega) h2

theorem maskGo_spec (n : Nat) : ∀ fuel j, n + 1 - 2^j ≤ fuel →
    ∃ K, maskGo n fuel j = 2^K ∧ j ≤ K ∧ n < 2^K ∧
      ∀ k, j ≤ k → n < 2^k → 2^K ≤ 2^k := by
  intro fuel
  induction fuel with
  | zero =>
    intro j h
    refine ⟨j, rfl, le_refl j, by omega, ?_⟩
    intro k hk _
    exact Nat.pow_le_pow_right (by norm_num) hk
  | succ f ih =>
    intro j h
    simp only [maskGo]
    by_cases hj : 2^j ≤ n
    · rw [if_pos hj]
      have hpow : (2:Nat)^(j+1) = 2*2^j := by ring
      have hpos : 0 < (2:Nat)^j := Nat.two_pow_pos j
      obtain ⟨K, hmask, hjK, hnK, hmin⟩ := ih (j+1) (by omega)
      refine ⟨K, hmask, by omega, hnK, ?_⟩
      intro k hk hnk
      have hkj : k ≠ j := by
        intro he
        rw [he] at hnk
        omega
      exact hmin k (by omega) hnk
    · rw [if_neg hj]
      refine ⟨j, rfl, le_refl j, by omega, ?_⟩
      intro k hk _
      exact Nat.pow_le_pow_right (by norm_num) hk

/-- C1: on a collection built by `from_sorted_iter` from a non-decreasing
sequence `s`, `find_gte x` returns the smallest element of `s` that is
`≥ x` when one exists, and `None` exactly when no element of `s` is `≥ x`
— the result of a straightforward successor search over the sorted
sequence. -/
theorem find_gte_successor_correct (α : Type) [LinearOrder α] (s items : List α)
    (hs : s.Sorted (· ≤ ·)) (hb : from_sorted_iter s = some items) (x : α) :
    (∀ a, find_gte items x = some a ↔
      (a ∈ s ∧ x ≤ a ∧ ∀ b ∈ s, x ≤ b → a ≤ b)) ∧
    (find_gte items x = none ↔ ∀ b ∈ s, ¬ x ≤ b) := by
  have heq := find_gte_eq_find? hs hb x
  constructor
  · intro a
    constructor
    · intro hfind
      rw [heq] at hfind
      exact find?_sorted_min s hs x a hfind
    · rintro ⟨hmem, hxa, hmin⟩
      rw [heq]
      cases hfind : s.find? (fun b => decide (x ≤ b)) with
      | none =>
        exfalso
        have hno := List.find?_eq_none.mp hfind a hmem
        simp only [decide_eq_true_eq] at hno
        exact hno hxa
      | some c =>
        obtain ⟨hcmem, hxc, hcmin⟩ := find?_sorted_min s hs x c hfind
        have h1 : a ≤ c := hmin c hcmem hxc
        have h2 : c ≤ a := hcmin a hmem hxa
        rw [le_antisymm h1 h2]
  · rw [heq, List.find?_eq_none]
    constructor
    · intro h b hb2 hxb
      have hno := h b hb2
      simp only [decide_eq_true_eq] at hno
      exact hno hxb
    · intro h b hb2
      simp only [decide_eq_true_eq]
      exact h b hb2

/-- Witness for C1 at the concrete sorted sequence `[1,2,4]` (whose built
collection is `[2,1,4]`) and query `3`. -/
theorem find_gte_successor_correct_witness :
    List.Sorted (· ≤ ·) ([1,2,4] : List Nat) ∧
    from_sorted_iter ([1,2,4] : List Nat) = some [2,1,4] ∧
    ((∀ a, find_gte ([2,1,4] : List Nat) 3 = some a ↔
      (a ∈ ([1,2,4] : List Nat) ∧ 3 ≤ a ∧ ∀ b ∈ ([1,2,4] : List Nat), 3 ≤ b → a ≤ b)) ∧
    (find_gte ([2,1,4] : List Nat) 3 = none ↔ ∀ b ∈ ([1,2,4] : List Nat), ¬ 3 ≤ b)) :=
  ⟨by decide, by decide,
    find_gte_successor_correct Nat [1,2,4] [2,1,4] (by decide) (by decide) 3⟩

/-- C2: for every input sequence (sorted or not) and every query, index
bounds are respected.  In construction, `eytzinger_walk` succeeds (the
iterator is never exhausted, so `iter.next().unwrap()` cannot panic),
consumes exactly the whole iterator, and writes no slot at or above the
capacity `s.length` (all such slots remain unwritten).  In `find_gte`, the
loop guard makes every read happen at a cursor `i < n` (in the model the
read `items[i]` carries that proof), and the recovered index `j - 1` is
below `n` whenever `j ≠ 0`, so the final `get_unchecked(j - 1)` read is in
bounds.  A precondition violation can only change values, never indices. -/
theorem construction_and_search_safety (α : Type) [LinearOrder α] :
    (∀ s : List α, ∃ f, eytzinger_walk s.length 0 (fun _ => none) s
        = some (f, ([] : List α)) ∧
      ∀ j : Nat, s.length ≤ j → f j = none) ∧
    (∀ (items : List α) (x : α), recoverIndex (findLoop items x 0) ≠ 0 →
      recoverIndex (findLoop items x 0) - 1 < items.length) := by
  constructor
  · intro s
    exact ⟨builtMap s, eytzinger_walk_full s, fun j hj => builtMap_of_ge s j hj⟩
  · intro items x hne
    have hr := recoverIndex_findLoopGo items x items.length 0 (by omega)
    cases hll : lastLeftGo items x items.length 0 with
    | none =>
      rw [hll] at hr
      have hr2 : recoverIndex (findLoop items x 0) = recoverIndex 0 := hr
      rw [hr2, recoverIndex_zero] at hne
      exact absurd rfl hne
    | some k =>
      rw [hll] at hr
      have hr2 : recoverIndex (findLoop items x 0) = k + 1 := hr
      rw [hr2]
      have := lastLeftGo_lt items x items.length 0 k hll
      omega

/-- Witness for C2 at the deliberately unsorted stored sequence `[5,3]`
and query `4`. -/
theorem construction_and_search_safety_witness :
    recoverIndex (findLoop ([5,3] : List Nat) 4 0) ≠ 0 ∧
    recoverIndex (findLoop ([5,3] : List Nat) 4 0) - 1 < ([5,3] : List Nat).length :=
  ⟨by decide, (construction_and_search_safety Nat).2 [5,3] 4 (by decide)⟩

/-- C3: the array built by `from_sorted_iter` from a non-decreasing
sequence `s` satisfies the Eytzinger invariant: position by position it
coincides with the sorted, perfectly level-filled complete binary search
tree over `s` (`specCompleteBST`), hence every implicit subtree holds
exactly the elements of the corresponding position of that tree, and the
in-order traversal of the implicit tree (`subtreeElems … 0`) is `s`, the
elements in ascending order. -/
theorem eytzinger_invariant (α : Type) [LinearOrder α] (s items : List α)
    (_hs : s.Sorted (· ≤ ·)) (hb : from_sorted_iter s = some items) :
    (∀ i : Nat, items[i]? = specCompleteBST s i) ∧ subtreeElems items 0 = s := by
  refine ⟨?_, subtreeElems_zero hb⟩
  intro i
  unfold specCompleteBST
  by_cases hi : i < s.length
  · have hmem : i ∈ inorderPos s.length 0 := mem_inorderPos.mpr ⟨hi, inSub_zero i⟩
    have hidx : (inorderPos s.length 0).indexOf i < (inorderPos s.length 0).length :=
      List.indexOf_lt_length.mpr hmem
    have hget : (inorderPos s.length 0)[(inorderPos s.length 0).indexOf i]? = some i := by
      rw [List.getElem?_eq_getElem hidx, List.getElem_indexOf hidx]
    rw [items_getElem hb i hi]
    unfold builtMap
    rw [assignAll_getElem (inorderPos s.length 0) _ s _ i (nodup_inorderPos _ _)
      (length_inorderPos_zero s.length).symm hget]
  · have hnotmem : i ∉ inorderPos s.length 0 := fun hmem =>
      hi (mem_inorderPos.mp hmem).1
    have h1 : items[i]? = none :=
      List.getElem?_eq_none (by rw [items_length hb]; omega)
    have h2 : s[(inorderPos s.length 0).indexOf i]? = none := by
      rw [List.indexOf_eq_length.mpr hnotmem, length_inorderPos_zero]
      exact List.getElem?_eq_none (by omega)
    rw [h1, h2]

/-- Witness for C3 at `s = [1,2,4]`, built collection `[2,1,4]`,
position `1`. -/
theorem eytzinger_invariant_witness :
    ([2,1,4] : List Nat)[1]? = specCompleteBST ([1,2,4] : List Nat) 1 :=
  (eytzinger_invariant Nat [1,2,4] [2,1,4] (by decide) (by decide)).1 1

/-- C4: a collection built from the empty sequence is empty, and
`find_gte` on it returns `None` for every query. -/
theorem find_gte_empty (α : Type) [LinearOrder α] (x : α) :
    from_sorted_iter ([] : List α) = some [] ∧ find_gte ([] : List α) x = none := by
  constructor
  · rfl
  · show (if recoverIndex (findLoop ([] : List α) x 0) = 0 then none
      else ([] : List α)[recoverIndex (findLoop ([] : List α) x 0) - 1]?) = none
    have h1 : findLoop ([] : List α) x 0 = 0 := rfl
    rw [h1, recoverIndex_zero, if_pos rfl]

/-- C5: `find_gte` is monotone in the query on a collection built from a
sorted sequence: for `x1 ≤ x2`, a hit for `x2` implies a hit for `x1`
with a value `≤` it, and a miss for `x1` implies a miss for `x2`. -/
theorem find_gte_monotone (α : Type) [LinearOrder α] (s items : List α)
    (hs : s.Sorted (· ≤ ·)) (hb : from_sorted_iter s = some items)
    (x1 x2 : α) (hx : x1 ≤ x2) :
    (∀ a2, find_gte items x2 = some a2 →
      ∃ a1, find_gte items x1 = some a1 ∧ a1 ≤ a2) ∧
    (find_gte items x1 = none → find_gte items x2 = none) := by
  have h1 := find_gte_eq_find? hs hb x1
  have h2 := find_gte_eq_find? hs hb x2
  constructor
  · intro a2 ha2
    rw [h2] at ha2
    obtain ⟨hmem2, hx2a, _⟩ := find?_sorted_min s hs x2 a2 ha2
    have hx1a : x1 ≤ a2 := le_trans hx hx2a
    cases hfind : s.find? (fun b => decide (x1 ≤ b)) with
    | none =>
      exfalso
      have hno := List.find?_eq_none.mp hfind a2 hmem2
      simp only [decide_eq_true_eq] at hno
      exact hno hx1a
    | some a1 =>
      obtain ⟨hmem1, hx1a1, hmin1⟩ := find?_sorted_min s hs x1 a1 hfind
      exact ⟨a1, by rw [h1, hfind], hmin1 a2 hmem2 hx1a⟩
  · intro hnone
    rw [h1, List.find?_eq_none] at hnone
    rw [h2, List.find?_eq_none]
    intro b hb2
    have hno := hnone b hb2
    simp only [decide_eq_true_eq] at hno ⊢
    intro hx2b
    exact hno (le_trans hx hx2b)

/-- Witness for C5 at `s = [1,2,4]`, collection `[2,1,4]`, queries
`2 ≤ 3`. -/
theorem find_gte_monotone_witness :
    ∃ a1, find_gte ([2,1,4] : List Nat) 2 = some a1 ∧ a1 ≤ 4 :=
  (find_gte_monotone Nat [1,2,4] [2,1,4] (by decide) (by decide) 2 3
    (by decide)).1 4 (by decide)

/-- C6: building through the unsorted constructor (`From<Vec<T>>`,
modelled by `fromVec`) or through `from_slice` gives the same collection —
and hence the same `find_gte` answer for every query — as
`from_sorted_iter` applied to the same elements arranged in non-decreasing
order: the internal sort produces exactly that arrangement. -/
theorem unsorted_build_equiv (α : Type) [LinearOrder α] (v s : List α)
    (hperm : s.Perm v) (hsort : s.Sorted (· ≤ ·)) :
    fromVec v = from_sorted_iter s ∧ (from_slice v).2 = from_sorted_iter s ∧
    ∀ x : α, (fromVec v).map (fun items => find_gte items x) =
      (from_sorted_iter s).map (fun items => find_gte items x) := by
  have hsorteq : List.insertionSort (· ≤ ·) v = s :=
    List.eq_of_perm_of_sorted ((List.perm_insertionSort (· ≤ ·) v).trans hperm.symm)
      (List.sorted_insertionSort (· ≤ ·) v) hsort
  refine ⟨?_, ?_, ?_⟩
  · show from_sorted_iter (List.insertionSort (· ≤ ·) v) = _
    rw [hsorteq]
  · show from_sorted_iter (List.insertionSort (· ≤ ·) v) = _
    rw [hsorteq]
  · intro x
    show (from_sorted_iter (List.insertionSort (· ≤ ·) v)).map _ = _
    rw [hsorteq]

/-- Witness for C6 at `v = [2,1]`, sorted arrangement `[1,2]`. -/
theorem unsorted_build_equiv_witness :
    fromVec ([2,1] : List Nat) = from_sorted_iter ([1,2] : List Nat) ∧
    (from_slice ([2,1] : List Nat)).2 = from_sorted_iter ([1,2] : List Nat) :=
  ⟨(unsorted_build_equiv Nat [2,1] [1,2] (by decide) (by decide)).1,
   (unsorted_build_equiv Nat [2,1] [1,2] (by decide) (by decide)).2.1⟩

/-- C7: the bit-manipulation recovery
`j = (i+1) >> (trailing_zeros(!(i+1)) + 1)` applied to the final descent
cursor yields exactly one plus the position of the last node at which the
walk branched left (the last candidate), `j = 0` exactly when no left
branch was ever taken, and consequently `find_gte` returns the same result
as the variant that tracks the last left-branch position explicitly. -/
theorem bit_trick_recovery (α : Type) [LinearOrder α] (items : List α) (x : α) :
    (∀ k, findLoopTrack items x 0 none = some k →
      recoverIndex (findLoop items x 0) = k + 1) ∧
    (findLoopTrack items x 0 none = none ↔ recoverIndex (findLoop items x 0) = 0) ∧
    find_gte items x = (findLoopTrack items x 0 none).bind (fun k => items[k]?) := by
  have htrack := findLoopTrackGo_eq items x items.length 0 none
  have hr := recoverIndex_findLoopGo items x items.length 0 (by omega)
  cases hll : lastLeftGo items x items.length 0 with
  | none =>
    rw [hll] at htrack hr
    have htrack2 : findLoopTrack items x 0 none = none := htrack
    have hr2 : recoverIndex (findLoop items x 0) = recoverIndex 0 := hr
    refine ⟨?_, ?_, ?_⟩
    · intro k hk
      rw [htrack2] at hk
      cases hk
    · rw [htrack2, hr2, recoverIndex_zero]
      simp
    · rw [htrack2]
      show (if recoverIndex (findLoop items x 0) = 0 then none
        else items[recoverIndex (findLoop items x 0) - 1]?) = _
      rw [hr2, recoverIndex_zero]
      rfl
  | some k0 =>
    rw [hll] at htrack hr
    have htrack2 : findLoopTrack items x 0 none = some k0 := htrack
    have hr2 : recoverIndex (findLoop items x 0) = k0 + 1 := hr
    refine ⟨?_, ?_, ?_⟩
    · intro k hk
      rw [htrack2] at hk
      cases Option.some.inj hk
      exact hr2
    · constructor
      · intro hcontra
        rw [htrack2] at hcontra
        cases hcontra
      · intro h0
        rw [hr2] at h0
        exact absurd h0 (by omega)
    · rw [htrack2]
      show (if recoverIndex (findLoop items x 0) = 0 then none
        else items[recoverIndex (findLoop items x 0) - 1]?) = _
      rw [hr2, if_neg (by omega)]
      have hk1 : k0 + 1 - 1 = k0 := by omega
      rw [hk1]
      rfl

/-- Witness for C7 at the collection `[2,1,4]` (built from `[1,2,4]`) and
query `3`: the last left branch is taken at position `2`. -/
theorem bit_trick_recovery_witness :
    recoverIndex (findLoop ([2,1,4] : List Nat) 3 0) = 2 + 1 :=
  (bit_trick_recovery Nat [2,1,4] 3).1 2 (by decide)

/-- C8: the `find_gte` descent terminates — the cursor strictly increases
at every iteration (it becomes `2*i+1` or `2*i+2`) — and the loop body
runs (one comparison per run) at most `⌊log2(n+1)⌋ + 1` times, i.e.
O(log n) comparisons per query. -/
theorem search_loop_bound (α : Type) [LinearOrder α] (items : List α) (x : α) :
    findLoopSteps items x 0 ≤ Nat.log2 (items.length + 1) + 1 ∧
    ∀ i : Nat, ∀ h : i < items.length,
      i < (if x ≤ items[i] then 2*i+1 else 2*i+2) := by
  refine ⟨findLoopSteps_le items x, ?_⟩
  intro i h
  by_cases hx : x ≤ items[i]
  · rw [if_pos hx]
    omega
  · rw [if_neg hx]
    omega

/-- Witness for C8 at the collection `[2,1,4]` and query `3`. -/
theorem search_loop_bound_witness :
    findLoopSteps ([2,1,4] : List Nat) 3 0 ≤ Nat.log2 (([2,1,4] : List Nat).length + 1) + 1 ∧
    0 < (if (3:Nat) ≤ ([2,1,4] : List Nat)[0] then 2*0+1 else 2*0+2) :=
  ⟨(search_loop_bound Nat [2,1,4] 3).1,
   (search_loop_bound Nat [2,1,4] 3).2 0 (by decide)⟩

/-- C9: the prefetch mask computed by the construction loop (start at 1,
double while `mask ≤ n`, subtract 1) is the smallest number of the form
`2^k - 1` that is `≥ n`; in particular it is `0` for `n = 0` and `n`
itself when `n` is of that form. -/
theorem prefetch_mask_spec (n : Nat) :
    (∃ k, computeMask n = 2^k - 1) ∧ n ≤ computeMask n ∧
    (∀ k, n ≤ 2^k - 1 → computeMask n ≤ 2^k - 1) ∧
    computeMask 0 = 0 ∧
    (∀ k, n = 2^k - 1 → computeMask n = n) := by
  obtain ⟨K, hmask, hK0, hnK, hmin⟩ := maskGo_spec n (n+1) 0 (by omega)
  have hcm : computeMask n = 2^K - 1 := by
    unfold computeMask
    rw [hmask]
  have hKpos : 0 < (2:Nat)^K := Nat.two_pow_pos K
  refine ⟨⟨K, hcm⟩, by omega, ?_, rfl, ?_⟩
  · intro k hk
    have hkpos : 0 < (2:Nat)^k := Nat.two_pow_pos k
    have hnk : n < 2^k := by omega
    have hle := hmin k (by omega) hnk
    omega
  · intro k hk
    have hkpos : 0 < (2:Nat)^k := Nat.two_pow_pos k
    have hnk : n < 2^k := by omega
    have hle := hmin k (by omega) hnk
    omega

/-- Witness for C9 at `n = 5`: the mask is `7 = 2^3 - 1`. -/
theorem prefetch_mask_spec_witness :
    computeMask 5 ≤ 2^3 - 1 :=
  (prefetch_mask_spec 5).2.2.1 3 (by decide)

/-- C10: after `from_slice v` the caller's slice holds the same multiset
of elements as before, now in non-decreasing order — it is not rearranged
into Eytzinger order; the Eytzinger arrangement lives in the separately
built collection, which is exactly `from_sorted_iter` of the reordered
slice. -/
theorem from_slice_frame (α : Type) [LinearOrder α] (v : List α) :
    (from_slice v).1.Perm v ∧ (from_slice v).1.Sorted (· ≤ ·) ∧
    (from_slice v).2 = from_sorted_iter ((from_slice v).1) :=
  ⟨List.perm_insertionSort (· ≤ ·) v, List.sorted_insertionSort (· ≤ ·) v, rfl⟩

end Ordsearch
